import Mathlib

/-!
Verification of the shopping-cart pricing engine
(`src/solutions/shopping_cart.py`) against its specification.

The Python implementation stores item prices, quantities and discount
values as IEEE-754 binary64 floats, accumulates the raw subtotal in
float arithmetic, converts it to `Decimal` through `str` (the shortest
round-tripping decimal representation), performs the discount / clamp /
tax steps in Python `decimal` context arithmetic (28 significant
digits, round-half-even), quantizes to 2 decimal places with
ROUND_HALF_UP and converts back to float.

The embedding below models every money-bearing value by its exact
rational value.  IEEE binary64 arithmetic (round to nearest, ties to
even, unbounded exponent — overflow and subnormals are outside the
range of any value considered here) is `rne53`; the `decimal`-context
rounding to 28 significant digits is `decRnd`; `str` of a float is
`strFloat`; CPython `round(x, 2)` is `pyRound2`; `Decimal.quantize(0.01,
ROUND_HALF_UP)` is `q2hu`.
-/

set_option maxRecDepth 8000

namespace Cart

/-- Decidable equality on ℚ through the efficient ordering primitives
(the derived structural instance is too slow for large numerators). -/
instance (priority := 2000) : DecidableEq ℚ := fun a b =>
  decidable_of_iff (a ≤ b ∧ b ≤ a) ⟨fun h => le_antisymm h.1 h.2, fun h => ⟨h.le, h.ge⟩⟩

/-- Round a rational to the nearest integer, ties to even (the rounding
used by IEEE-754 arithmetic and by the `decimal` context default
ROUND_HALF_EVEN). -/
def rhe (q : ℚ) : ℤ :=
  if q - ⌊q⌋ < 1/2 then ⌊q⌋
  else if q - ⌊q⌋ > 1/2 then ⌊q⌋ + 1
  else if ⌊q⌋ % 2 = 0 then ⌊q⌋ else ⌊q⌋ + 1

/-- Round a rational to the nearest integer, ties away from zero
(`decimal` ROUND_HALF_UP). -/
def rhu (q : ℚ) : ℤ :=
  if 0 ≤ q then ⌊q + 1/2⌋ else -⌊-q + 1/2⌋

/-- Fuelled loop computing the base-`b` exponent of `q ≥ 1`:
the number of divisions by `b` until the value drops below `b`. -/
def logUpF (b : ℕ) : ℕ → ℚ → ℤ
  | 0, _ => 0
  | n+1, q => if q < (b : ℚ) then 0 else logUpF b n (q / (b : ℚ)) + 1

/-- Fuelled loop computing the (negative) base-`b` exponent of
`0 < q < 1`: minus the number of multiplications by `b` until the value
reaches 1. -/
def logDownF (b : ℕ) : ℕ → ℚ → ℤ
  | 0, _ => 0
  | n+1, q => if 1 ≤ q then 0 else logDownF b n (q * (b : ℚ)) - 1

/-- Base-`b` integer logarithm of a positive rational: the unique `e`
with `b ^ e ≤ q < b ^ (e + 1)`.  The fuel `q.num.natAbs + q.den` always
suffices (see `qlog_spec`) and the loops stop early, so evaluation is
fast. -/
def qlog (b : ℕ) (q : ℚ) : ℤ :=
  if 1 ≤ q then logUpF b (q.num.natAbs + q.den) q
  else logDownF b (q.num.natAbs + q.den) q

/-- Integer power of a natural base in ℚ, computed with natural-number
exponents (the elaborator evaluates these efficiently). -/
def zpowQ (b : ℕ) (k : ℤ) : ℚ :=
  if 0 ≤ k then ((b : ℚ)) ^ k.toNat else 1 / (b : ℚ) ^ (-k).toNat

/-- Round a positive rational to `p` significant base-`b` digits,
ties to even. -/
def sigRndPos (b p : ℕ) (x : ℚ) : ℚ :=
  let e : ℤ := qlog b x
  let s : ℚ := zpowQ b ((p : ℤ) - 1 - e)
  ((rhe (x * s) : ℤ) : ℚ) / s

/-- Round a rational to `p` significant base-`b` digits, ties to even,
extended to all rationals by sign symmetry (IEEE and `decimal` rounding
are both symmetric about zero). -/
def sigRnd (b p : ℕ) (x : ℚ) : ℚ :=
  if 0 < x then sigRndPos b p x
  else if x < 0 then -(sigRndPos b p (-x))
  else 0

/-- Value of an IEEE-754 binary64 operation result: round to nearest,
53-bit significand, ties to even (exponent range unbounded; every value
in this development is in the normal range). -/
def rne53 (x : ℚ) : ℚ := sigRnd 2 53 x

/-- Rounding applied by the default Python `decimal` context to every
arithmetic result: 28 significant digits, ROUND_HALF_EVEN. -/
def decRnd (x : ℚ) : ℚ := sigRnd 10 28 x

/-- Python float addition. -/
def fadd (a b : ℚ) : ℚ := rne53 (a + b)

/-- Python float multiplication. -/
def fmul (a b : ℚ) : ℚ := rne53 (a * b)

/-- Python `decimal` addition under the default context. -/
def dAdd (x y : ℚ) : ℚ := decRnd (x + y)

/-- Python `decimal` subtraction under the default context. -/
def dSub (x y : ℚ) : ℚ := decRnd (x - y)

/-- Python `decimal` multiplication under the default context. -/
def dMul (x y : ℚ) : ℚ := decRnd (x * y)

/-- Python `decimal` division under the default context. -/
def dDiv (x y : ℚ) : ℚ := decRnd (x / y)

/-- CPython `round(x, 2)` on a float `x`: correctly round the exact
binary value to 2 decimal places with ties to even, then return the
nearest float. -/
def pyRound2 (x : ℚ) : ℚ := rne53 (((rhe (x * 100) : ℤ) : ℚ) / 100)

/-- `Decimal.quantize(Decimal(0.01), rounding=ROUND_HALF_UP)`: round to
2 decimal places, ties away from zero. -/
def q2hu (x : ℚ) : ℚ := ((rhu (x * 100) : ℤ) : ℚ) / 100

/-- Candidates for the shortest decimal representation, tried from 1
significant digit up to 17; the first that converts back to the same
float is the value of CPython `repr`/`str` of the float. -/
def shortestFrom (x : ℚ) : ℕ → ℚ
  | 0 => x
  | n+1 =>
    let c := sigRndPos 10 (18 - (n+1)) x
    if rne53 c = x then c else shortestFrom x n

/-- Exact value of `Decimal(str(x))` for a positive float `x`: the
shortest decimal that round-trips through binary64. -/
def strFloatPos (x : ℚ) : ℚ := shortestFrom x 17

/-- Exact value of `Decimal(str(x))` for a float `x`. -/
def strFloat (x : ℚ) : ℚ :=
  if 0 < x then strFloatPos x
  else if x < 0 then -(strFloatPos (-x))
  else 0

/-- A stored cart item: unit price and quantity
(`self.items[name] = {'price': price, 'quantity': quantity}`). -/
structure Item where
  price : ℚ
  quantity : ℚ
deriving DecidableEq

/-- A stored discount
(`self.discount = {'code': code, 'type': discount_type, 'value': value}`). -/
structure Discount where
  code : String
  dtype : String
  value : ℚ
deriving DecidableEq

/-- State of a `ShoppingCart`: the insertion-ordered item dictionary
and the optional discount. -/
structure CartState where
  items : List (String × Item)
  discount : Option Discount
deriving DecidableEq

/-- `ShoppingCart.__init__`. -/
def emptyCart : CartState := ⟨[], none⟩

/-- `ShoppingCart.TAX_RATE = 0.085`: the float (binary64) nearest to
0.085. -/
def TAX_RATE : ℚ := rne53 (17/200)

/-- `ShoppingCart.add_item`: validates price then quantity, raising
`ValueError` before any mutation; accumulates quantity (by float
addition) when the name is present, otherwise appends a new entry. -/
def add_item (s : CartState) (name : String) (price quantity : ℚ) :
    Except String CartState :=
  if price < 0 then Except.error "Price cannot be negative"
  else if quantity ≤ 0 then Except.error "Quantity must be greater than zero"
  else if (s.items.lookup name).isSome then
    Except.ok { s with items := s.items.map fun kv =>
      if kv.1 = name then (kv.1, { kv.2 with quantity := fadd kv.2.quantity quantity })
      else kv }
  else
    Except.ok { s with items := s.items ++ [(name, ⟨price, quantity⟩)] }

/-- Effect of calling `add_item` under Python exception semantics: when
a `ValueError` is raised the cart object is left unchanged (validation
happens before any store mutation). -/
def runAdd (s : CartState) (name : String) (price quantity : ℚ) : CartState :=
  match add_item s name price quantity with
  | Except.ok s2 => s2
  | Except.error _ => s

/-- `ShoppingCart.remove_item`: `self.items.pop(name, None)` — delete
the entry when present, silently do nothing when absent. -/
def remove_item (s : CartState) (name : String) : CartState :=
  { s with items := s.items.filter fun kv => !(kv.1 == name) }

/-- `ShoppingCart.get_item_count`: `len(self.items)`. -/
def get_item_count (s : CartState) : ℕ := s.items.length

/-- `ShoppingCart._calculate_raw_subtotal`:
`sum(item['price'] * item['quantity'] for item in self.items.values())`,
a left fold of float additions of float products starting from 0. -/
def rawSubtotal (s : CartState) : ℚ :=
  s.items.foldl (fun acc kv => fadd acc (fmul kv.2.price kv.2.quantity)) 0

/-- `ShoppingCart.get_subtotal`: `round(self._calculate_raw_subtotal(), 2)`. -/
def get_subtotal (s : CartState) : ℚ := pyRound2 (rawSubtotal s)

/-- `ShoppingCart.apply_discount`: unconditionally overwrite the
discount slot (most recent wins); no validation of type or value. -/
def apply_discount (s : CartState) (code dtype : String) (value : ℚ) : CartState :=
  { s with discount := some ⟨code, dtype, value⟩ }

/-- `ShoppingCart.get_total`: `Decimal(str(raw_subtotal))`, optional
discount (percentage or fixed, any other type falls through), clamp at
zero, multiply by `1 + Decimal(str(TAX_RATE))`, quantize to 2 decimal
places ROUND_HALF_UP, and return as float. -/
def get_total (s : CartState) : ℚ :=
  let subtotal0 := strFloat (rawSubtotal s)
  let subtotal1 :=
    match s.discount with
    | none => subtotal0
    | some d =>
      if d.dtype = "percentage" then
        dSub subtotal0 (dMul subtotal0 (dDiv (strFloat d.value) 100))
      else if d.dtype = "fixed" then
        dSub subtotal0 (strFloat d.value)
      else subtotal0
  let subtotal2 := if subtotal1 < 0 then 0 else subtotal1
  let total := dMul subtotal2 (dAdd 1 (strFloat TAX_RATE))
  rne53 (q2hu total)

/-- Exact subtotal required by the specification: the exact sum over
all entries of price × quantity. -/
def specRawSubtotal (s : CartState) : ℚ :=
  (s.items.map fun kv => kv.2.price * kv.2.quantity).sum

/-- Subtotal required by the specification: the exact sum rounded to
2 decimal places, round-half-up. -/
def specSubtotal (s : CartState) : ℚ := q2hu (specRawSubtotal s)

/-- Discount step required by the specification (section 4.3):
`Percentage(v)`: subtotal − subtotal × (v/100); `Fixed(v)`:
subtotal − v; any other kind: no discount. -/
def specDiscounted (sub : ℚ) (d : Option Discount) : ℚ :=
  match d with
  | none => sub
  | some d =>
    if d.dtype = "percentage" then sub - sub * (d.value / 100)
    else if d.dtype = "fixed" then sub - d.value
    else sub

/-- Total required by the specification (section 4.3): exact raw
subtotal, discount step, clamp at zero, multiply by 1 + 0.085, round to
2 decimal places half-up. -/
def specTotal (s : CartState) : ℚ :=
  q2hu (max 0 (specDiscounted (specRawSubtotal s) s.discount) * (1 + 17/200))

/-- A rational representable as a decimal with at most 28 significant
digits, hence left exact by every `decimal`-context operation. -/
def Dec28 (x : ℚ) : Prop :=
  ∃ m : ℤ, ∃ k : ℤ, x = (m : ℚ) / 10 ^ k ∧ m.natAbs < 10 ^ 28

/-- Cart operations available to a caller. -/
inductive Op where
  | add (name : String) (price quantity : ℚ)
  | remove (name : String)
  | disc (code dtype : String) (value : ℚ)

/-- One caller operation acting on the cart state (a raised
`ValueError` leaves the state unchanged). -/
def step (s : CartState) : Op → CartState
  | Op.add n p q => runAdd s n p q
  | Op.remove n => remove_item s n
  | Op.disc c t v => apply_discount s c t v

/-- Cart state reached from a fresh cart by a sequence of operations. -/
def run (ops : List Op) : CartState := ops.foldl step emptyCart

/-- Item-store invariant from the specification: price ≥ 0 and
quantity > 0 for every stored item. -/
def CartInv (s : CartState) : Prop :=
  ∀ kv ∈ s.items, 0 ≤ kv.2.price ∧ 0 < kv.2.quantity

/-! ### Properties of the integer rounding primitives -/

theorem floor_le_rhe (q : ℚ) : ⌊q⌋ ≤ rhe q := by
  rw [rhe]; split_ifs <;> omega

theorem rhe_le_floor_add_one (q : ℚ) : rhe q ≤ ⌊q⌋ + 1 := by
  rw [rhe]; split_ifs <;> omega

theorem le_rhe (q : ℚ) : q - 1/2 ≤ (rhe q : ℚ) := by
  have h1 : (⌊q⌋ : ℚ) ≤ q := Int.floor_le q
  have h2 : q < ⌊q⌋ + 1 := Int.lt_floor_add_one q
  rw [rhe]
  split_ifs with ha hb hc <;> push_cast <;> linarith

theorem rhe_le (q : ℚ) : (rhe q : ℚ) ≤ q + 1/2 := by
  have h1 : (⌊q⌋ : ℚ) ≤ q := Int.floor_le q
  have h2 : q < ⌊q⌋ + 1 := Int.lt_floor_add_one q
  rw [rhe]
  split_ifs with ha hb hc <;> push_cast <;> linarith

theorem rhe_intCast (n : ℤ) : rhe (n : ℚ) = n := by
  rw [rhe]
  norm_num

theorem rhe_mono {a b : ℚ} (h : a ≤ b) : rhe a ≤ rhe b := by
  have hf : ⌊a⌋ ≤ ⌊b⌋ := Int.floor_mono h
  rcases lt_or_eq_of_le hf with hlt | heq
  · have h1 : rhe a ≤ ⌊a⌋ + 1 := rhe_le_floor_add_one a
    have h2 : ⌊b⌋ ≤ rhe b := floor_le_rhe b
    omega
  · have ha1 : (⌊a⌋ : ℚ) ≤ a := Int.floor_le a
    have hb2 : b < ⌊b⌋ + 1 := Int.lt_floor_add_one b
    rw [rhe, rhe, ← heq]
    split_ifs <;> push_cast at * <;> first | omega | linarith

theorem rhe_nonneg {q : ℚ} (h : 0 ≤ q) : 0 ≤ rhe q := by
  have h1 := floor_le_rhe q
  have h2 : (0 : ℤ) ≤ ⌊q⌋ := Int.floor_nonneg.mpr h
  omega

theorem one_le_rhe {q : ℚ} (h : 1 ≤ q) : 1 ≤ rhe q := by
  have h1 := floor_le_rhe q
  have h2 : (1 : ℤ) ≤ ⌊q⌋ := by exact_mod_cast Int.le_floor.mpr (by exact_mod_cast h)
  omega

theorem rhu_of_nonneg {q : ℚ} (h : 0 ≤ q) : rhu q = ⌊q + 1/2⌋ := by
  rw [rhu, if_pos h]

theorem rhu_nonneg {q : ℚ} (h : 0 ≤ q) : 0 ≤ rhu q := by
  rw [rhu_of_nonneg h]
  exact Int.floor_nonneg.mpr (by linarith)

theorem rhu_mono_nonneg {a b : ℚ} (h0 : 0 ≤ a) (h : a ≤ b) : rhu a ≤ rhu b := by
  rw [rhu_of_nonneg h0, rhu_of_nonneg (le_trans h0 h)]
  exact Int.floor_mono (by linarith)

theorem rhe_eq_rhu {q : ℚ} (h0 : 0 ≤ q) (ht : q - ⌊q⌋ ≠ 1/2) : rhe q = rhu q := by
  have h1 : (⌊q⌋ : ℚ) ≤ q := Int.floor_le q
  have h2 : q < ⌊q⌋ + 1 := Int.lt_floor_add_one q
  rw [rhu_of_nonneg h0, rhe]
  split_ifs with ha hb hc
  · exact (Int.floor_eq_iff.mpr ⟨by push_cast; linarith, by push_cast; linarith⟩).symm
  · exact (Int.floor_eq_iff.mpr ⟨by push_cast; linarith, by push_cast; linarith⟩).symm
  · exact absurd (by linarith) ht
  · exact absurd (by linarith) ht

/-! ### Correctness of the fuelled base-`b` logarithm -/

theorem logUpF_spec {b : ℕ} (hb : 2 ≤ b) :
    ∀ (n : ℕ) (q : ℚ), 1 ≤ q → q < (b : ℚ) ^ n →
      (b : ℚ) ^ logUpF b n q ≤ q ∧ q < (b : ℚ) ^ (logUpF b n q + 1) := by
  intro n
  induction n with
  | zero =>
    intro q h1 h2
    rw [pow_zero] at h2
    exact absurd h2 (not_lt.mpr h1)
  | succ n ih =>
    intro q h1 h2
    have hb0 : (0 : ℚ) < b := by
      have : (2 : ℚ) ≤ b := by exact_mod_cast hb
      linarith
    rw [logUpF]
    split_ifs with h
    · refine ⟨by simpa using h1, ?_⟩
      rw [zero_add, zpow_one]
      exact h
    · have h1a : 1 ≤ q / b := (one_le_div hb0).mpr (not_lt.mp h)
      have h2a : q / b < (b : ℚ) ^ n := by
        rw [div_lt_iff₀ hb0, ← pow_succ]
        exact h2
      obtain ⟨hA, hB⟩ := ih (q / b) h1a h2a
      constructor
      · rw [zpow_add_one₀ (ne_of_gt hb0)]
        calc (b : ℚ) ^ logUpF b n (q / b) * b ≤ q / b * b := by
              exact mul_le_mul_of_nonneg_right hA (le_of_lt hb0)
          _ = q := div_mul_cancel₀ q (ne_of_gt hb0)
      · have : q / b * b < (b : ℚ) ^ (logUpF b n (q / b) + 1) * b :=
          mul_lt_mul_of_pos_right hB hb0
        rw [div_mul_cancel₀ q (ne_of_gt hb0)] at this
        rw [zpow_add_one₀ (ne_of_gt hb0)]
        exact this

theorem logDownF_spec {b : ℕ} (hb : 2 ≤ b) :
    ∀ (n : ℕ) (q : ℚ), 0 < q → q < b → 1 ≤ q * (b : ℚ) ^ n →
      (b : ℚ) ^ logDownF b n q ≤ q ∧ q < (b : ℚ) ^ (logDownF b n q + 1) := by
  intro n
  induction n with
  | zero =>
    intro q h0 hlt h1
    rw [pow_zero, mul_one] at h1
    rw [logDownF]
    refine ⟨by simpa using h1, ?_⟩
    rw [zero_add, zpow_one]
    exact hlt
  | succ n ih =>
    intro q h0 hlt h1
    have hb0 : (0 : ℚ) < b := by
      have : (2 : ℚ) ≤ b := by exact_mod_cast hb
      linarith
    rw [logDownF]
    split_ifs with h
    · refine ⟨by simpa using h, ?_⟩
      rw [zero_add, zpow_one]
      exact hlt
    · have h0a : 0 < q * b := mul_pos h0 hb0
      have hlta : q * b < b := by
        have : q * b < 1 * b := mul_lt_mul_of_pos_right (not_le.mp h) hb0
        simpa using this
      have h1a : 1 ≤ q * b * (b : ℚ) ^ n := by
        rw [mul_assoc, ← pow_succ']
        exact h1
      obtain ⟨hA, hB⟩ := ih (q * b) h0a hlta h1a
      have hE : (b : ℚ) ^ (logDownF b n (q * b) - 1) * b = (b : ℚ) ^ logDownF b n (q * b) := by
        rw [← zpow_add_one₀ (ne_of_gt hb0), Int.sub_add_cancel]
      constructor
      · have : (b : ℚ) ^ (logDownF b n (q * b) - 1) * b ≤ q * b := by
          rw [hE]
          exact hA
        exact le_of_mul_le_mul_right this hb0
      · have : q * b < (b : ℚ) ^ (logDownF b n (q * b) - 1 + 1) * b := by
          rw [Int.sub_add_cancel, ← zpow_add_one₀ (ne_of_gt hb0)]
          exact hB
        exact lt_of_mul_lt_mul_right this (le_of_lt hb0)

theorem qlog_spec {b : ℕ} (hb : 2 ≤ b) {q : ℚ} (hq : 0 < q) :
    (b : ℚ) ^ qlog b q ≤ q ∧ q < (b : ℚ) ^ (qlog b q + 1) := by
  have hb2 : (2 : ℚ) ≤ b := by exact_mod_cast hb
  have hb0 : (0 : ℚ) < b := by linarith
  rw [qlog]
  split_ifs with h
  · apply logUpF_spec hb _ q h
    have hnum : 0 < q.num := Rat.num_pos.mpr hq
    have hden : (1 : ℚ) ≤ (q.den : ℚ) := by exact_mod_cast q.den_pos
    have hq_num : q ≤ (q.num : ℚ) := by
      conv_lhs => rw [← Rat.num_div_den q]
      exact div_le_self (by exact_mod_cast le_of_lt hnum) hden
    have h1 : (q.num : ℚ) ≤ (q.num.natAbs : ℚ) := by
      have h0 : q.num ≤ (q.num.natAbs : ℤ) := by omega
      calc (q.num : ℚ) ≤ ((q.num.natAbs : ℤ) : ℚ) := Int.cast_le.mpr h0
        _ = (q.num.natAbs : ℚ) := by simp [Int.cast_natAbs]
    have h2 : (q.num.natAbs : ℚ) < 2 ^ q.num.natAbs := by
      exact_mod_cast Nat.lt_two_pow q.num.natAbs
    have h3 : (2 : ℚ) ^ q.num.natAbs ≤ (2 : ℚ) ^ (q.num.natAbs + q.den) :=
      pow_le_pow_right (by norm_num) (Nat.le_add_right _ _)
    have h4 : (2 : ℚ) ^ (q.num.natAbs + q.den) ≤ (b : ℚ) ^ (q.num.natAbs + q.den) :=
      pow_le_pow_left (by norm_num) hb2 _
    linarith
  · apply logDownF_spec hb _ q hq (lt_trans (not_le.mp h) (by linarith))
    have hnum : 0 < q.num := Rat.num_pos.mpr hq
    have hnum1 : (1 : ℚ) ≤ (q.num : ℚ) := by exact_mod_cast hnum
    have hden0 : (0 : ℚ) < (q.den : ℚ) := by exact_mod_cast q.den_pos
    have hq_ge : 1 / (q.den : ℚ) ≤ q := by
      conv_rhs => rw [← Rat.num_div_den q]
      rw [div_le_div_iff hden0 hden0]
      nlinarith
    have hd2 : (q.den : ℚ) < 2 ^ q.den := by exact_mod_cast Nat.lt_two_pow q.den
    have h3 : (2 : ℚ) ^ q.den ≤ (2 : ℚ) ^ (q.num.natAbs + q.den) :=
      pow_le_pow_right (by norm_num) (Nat.le_add_left _ _)
    have h4 : (2 : ℚ) ^ (q.num.natAbs + q.den) ≤ (b : ℚ) ^ (q.num.natAbs + q.den) :=
      pow_le_pow_left (by norm_num) hb2 _
    have hbf : (q.den : ℚ) ≤ (b : ℚ) ^ (q.num.natAbs + q.den) := by linarith
    calc (1 : ℚ) = (1 / (q.den : ℚ)) * (q.den : ℚ) := by field_simp
      _ ≤ q * (b : ℚ) ^ (q.num.natAbs + q.den) :=
          mul_le_mul hq_ge hbf (le_of_lt hden0) (le_of_lt hq)

theorem zpowQ_eq {b : ℕ} (hb : (b : ℚ) ≠ 0) (k : ℤ) : zpowQ b k = (b : ℚ) ^ k := by
  rw [zpowQ]
  split_ifs with h
  · rw [← zpow_natCast, Int.toNat_of_nonneg h]
  · rw [← zpow_natCast, Int.toNat_of_nonneg (by omega : (0 : ℤ) ≤ -k), one_div,
      ← zpow_neg, neg_neg]

/-! ### Properties of significant-digit rounding -/

theorem sigRndPos_eq {b p : ℕ} (hb : 2 ≤ b) (x : ℚ) :
    sigRndPos b p x =
      ((rhe (x * (b : ℚ) ^ ((p : ℤ) - 1 - qlog b x)) : ℤ) : ℚ) /
        (b : ℚ) ^ ((p : ℤ) - 1 - qlog b x) := by
  have hb0 : (b : ℚ) ≠ 0 := by
    have : (2 : ℚ) ≤ b := by exact_mod_cast hb
    linarith
  rw [sigRndPos, zpowQ_eq hb0]

theorem sigRndPos_bounds {b p : ℕ} (hb : 2 ≤ b) (hp : 1 ≤ p) {x : ℚ} (hx : 0 < x) :
    (b : ℚ) ^ qlog b x ≤ sigRndPos b p x ∧ sigRndPos b p x ≤ (b : ℚ) ^ (qlog b x + 1) := by
  have hb2 : (2 : ℚ) ≤ b := by exact_mod_cast hb
  have hb0 : (0 : ℚ) < b := by linarith
  have hb1 : (1 : ℚ) < b := by linarith
  obtain ⟨hlow, hhigh⟩ := qlog_spec hb hx
  set e : ℤ := qlog b x with he
  set s : ℚ := (b : ℚ) ^ ((p : ℤ) - 1 - e) with hs
  have hs0 : (0 : ℚ) < s := zpow_pos hb0 _
  rw [sigRndPos_eq hb, ← he, ← hs]
  have hxslow : (b : ℚ) ^ ((p : ℤ) - 1) ≤ x * s := by
    have := mul_le_mul_of_nonneg_right hlow (le_of_lt hs0)
    calc (b : ℚ) ^ ((p : ℤ) - 1) = (b : ℚ) ^ e * s := by
          rw [hs, ← zpow_add₀ (ne_of_gt hb0)]
          congr 1
          ring
      _ ≤ x * s := this
  have hxshigh : x * s < (b : ℚ) ^ (p : ℤ) := by
    have := mul_lt_mul_of_pos_right hhigh hs0
    calc x * s < (b : ℚ) ^ (e + 1) * s := this
      _ = (b : ℚ) ^ (p : ℤ) := by
          rw [hs, ← zpow_add₀ (ne_of_gt hb0)]
          congr 1
          ring
  -- integer bounds for the rounded mantissa
  have hpk : ((b ^ (p - 1) : ℕ) : ℚ) = (b : ℚ) ^ ((p : ℤ) - 1) := by
    push_cast
    rw [← zpow_natCast, Nat.cast_sub hp]
    norm_num
  have hpk2 : ((b ^ p : ℕ) : ℚ) = (b : ℚ) ^ (p : ℤ) := by
    push_cast
    rw [← zpow_natCast]
  have hrlow : ((b ^ (p - 1) : ℕ) : ℤ) ≤ rhe (x * s) := by
    have h1 : ((b ^ (p - 1) : ℕ) : ℚ) - 1/2 ≤ (rhe (x * s) : ℚ) := by
      have := le_rhe (x * s)
      rw [hpk]
      linarith
    have h2 : ((b ^ (p - 1) : ℕ) : ℚ) < (rhe (x * s) : ℚ) + 1 := by linarith
    exact_mod_cast Int.lt_add_one_iff.mp (by exact_mod_cast h2)
  have hrhigh : rhe (x * s) ≤ ((b ^ p : ℕ) : ℤ) := by
    have h1 : (rhe (x * s) : ℚ) ≤ ((b ^ p : ℕ) : ℚ) + 1/2 := by
      have := rhe_le (x * s)
      rw [hpk2]
      linarith
    have h2 : (rhe (x * s) : ℚ) < ((b ^ p : ℕ) : ℚ) + 1 := by linarith
    exact_mod_cast Int.lt_add_one_iff.mp (by exact_mod_cast h2)
  constructor
  · rw [le_div_iff hs0]
    calc (b : ℚ) ^ e * s = (b : ℚ) ^ ((p : ℤ) - 1) := by
          rw [hs, ← zpow_add₀ (ne_of_gt hb0)]
          congr 1
          ring
      _ = ((b ^ (p - 1) : ℕ) : ℚ) := hpk.symm
      _ ≤ (rhe (x * s) : ℚ) := by exact_mod_cast hrlow
  · rw [div_le_iff hs0]
    calc (rhe (x * s) : ℚ) ≤ ((b ^ p : ℕ) : ℚ) := by exact_mod_cast hrhigh
      _ = (b : ℚ) ^ (p : ℤ) := hpk2
      _ = (b : ℚ) ^ (e + 1) * s := by
          rw [hs, ← zpow_add₀ (ne_of_gt hb0)]
          congr 1
          ring

theorem sigRndPos_pos {b p : ℕ} (hb : 2 ≤ b) (hp : 1 ≤ p) {x : ℚ} (hx : 0 < x) :
    0 < sigRndPos b p x := by
  have hb0 : (0 : ℚ) < b := by
    have : (2 : ℚ) ≤ b := by exact_mod_cast hb
    linarith
  exact lt_of_lt_of_le (zpow_pos hb0 _) (sigRndPos_bounds hb hp hx).1

theorem sigRnd_nonneg {b p : ℕ} (hb : 2 ≤ b) {x : ℚ} (hx : 0 ≤ x) :
    0 ≤ sigRnd b p x := by
  rw [sigRnd]
  split_ifs with h1 h2
  · have hb0 : (0 : ℚ) < b := by
      have : (2 : ℚ) ≤ b := by exact_mod_cast hb
      linarith
    have hs0 : (0 : ℚ) < (b : ℚ) ^ ((p : ℤ) - 1 - qlog b x) := zpow_pos hb0 _
    rw [sigRndPos_eq hb]
    apply div_nonneg _ (le_of_lt hs0)
    exact_mod_cast rhe_nonneg (mul_nonneg hx (le_of_lt hs0))
  · exact absurd h2 (not_lt.mpr hx)
  · exact le_refl 0

theorem sigRnd_zero (b p : ℕ) : sigRnd b p 0 = 0 := by
  rw [sigRnd]
  norm_num

theorem sigRnd_pos {b p : ℕ} (hb : 2 ≤ b) (hp : 1 ≤ p) {x : ℚ} (hx : 0 < x) :
    0 < sigRnd b p x := by
  rw [sigRnd, if_pos hx]
  exact sigRndPos_pos hb hp hx

theorem sigRnd_mono {b p : ℕ} (hb : 2 ≤ b) (hp : 1 ≤ p) {x y : ℚ}
    (hx : 0 ≤ x) (hxy : x ≤ y) : sigRnd b p x ≤ sigRnd b p y := by
  rcases eq_or_lt_of_le hx with h0 | h0
  · rw [← h0, sigRnd_zero]
    exact sigRnd_nonneg hb (h0 ▸ hxy)
  · have hy0 : 0 < y := lt_of_lt_of_le h0 hxy
    rw [sigRnd, if_pos h0, sigRnd, if_pos hy0]
    have hb2 : (2 : ℚ) ≤ b := by exact_mod_cast hb
    have hb0 : (0 : ℚ) < b := by linarith
    have hb1 : (1 : ℚ) < b := by linarith
    obtain ⟨hx1, hx2⟩ := qlog_spec hb h0
    obtain ⟨hy1, hy2⟩ := qlog_spec hb hy0
    have hee : qlog b x ≤ qlog b y := by
      by_contra hc
      push_neg at hc
      have : (b : ℚ) ^ (qlog b y + 1) ≤ (b : ℚ) ^ qlog b x :=
        zpow_le_zpow_right₀ (le_of_lt hb1) (by omega)
      linarith
    rcases eq_or_lt_of_le hee with heq | hlt
    · have hs0 : (0 : ℚ) < (b : ℚ) ^ ((p : ℤ) - 1 - qlog b x) := zpow_pos hb0 _
      rw [sigRndPos_eq hb, sigRndPos_eq hb, ← heq]
      exact (div_le_div_right hs0).mpr
        (by exact_mod_cast rhe_mono (mul_le_mul_of_nonneg_right hxy (le_of_lt hs0)))
    · calc sigRndPos b p x ≤ (b : ℚ) ^ (qlog b x + 1) := (sigRndPos_bounds hb hp h0).2
        _ ≤ (b : ℚ) ^ qlog b y := zpow_le_zpow_right₀ (le_of_lt hb1) (by omega)
        _ ≤ sigRndPos b p y := (sigRndPos_bounds hb hp hy0).1

theorem int_mul_zpow {b : ℕ} (hb0 : (0 : ℚ) < b) (m k J : ℤ) (hk : k ≤ J) :
    ((m : ℚ) / (b : ℚ) ^ k) * (b : ℚ) ^ J = ((m * (b : ℤ) ^ (J - k).toNat : ℤ) : ℚ) := by
  have hbne : (b : ℚ) ≠ 0 := ne_of_gt hb0
  have harith : J - k + k = J := by ring
  push_cast
  rw [← zpow_natCast (b : ℚ) (J - k).toNat,
    Int.toNat_of_nonneg (by omega : (0 : ℤ) ≤ J - k)]
  rw [div_mul_eq_mul_div, div_eq_iff (zpow_pos hb0 k).ne', mul_assoc,
    ← zpow_add₀ hbne, harith]

theorem int_div_zpow {b : ℕ} (hb0 : (0 : ℚ) < b) (m k J : ℤ) (hk : k ≤ J) :
    ((m * (b : ℤ) ^ (J - k).toNat : ℤ) : ℚ) / (b : ℚ) ^ J = (m : ℚ) / (b : ℚ) ^ k := by
  have hbne : (b : ℚ) ≠ 0 := ne_of_gt hb0
  have harith : J - k + k = J := by ring
  push_cast
  rw [← zpow_natCast (b : ℚ) (J - k).toNat,
    Int.toNat_of_nonneg (by omega : (0 : ℤ) ≤ J - k)]
  rw [div_eq_div_iff (zpow_pos hb0 J).ne' (zpow_pos hb0 k).ne', mul_assoc,
    ← zpow_add₀ hbne, harith]

theorem sigRndPos_eq_self {b p : ℕ} (hb : 2 ≤ b) {x : ℚ} (hx : 0 < x) (m k : ℤ)
    (hxeq : x = (m : ℚ) / (b : ℚ) ^ k) (hm : m.natAbs < b ^ p) :
    sigRndPos b p x = x := by
  have hb2 : (2 : ℚ) ≤ b := by exact_mod_cast hb
  have hb0 : (0 : ℚ) < b := by linarith
  have hb1 : (1 : ℚ) < b := by linarith
  have hbne : (b : ℚ) ≠ 0 := ne_of_gt hb0
  obtain ⟨hlow, hhigh⟩ := qlog_spec hb hx
  have hmq : (m : ℚ) < (b : ℚ) ^ (p : ℤ) := by
    have h1 : (m : ℚ) ≤ (m.natAbs : ℚ) := by
      have h0 : m ≤ (m.natAbs : ℤ) := by omega
      calc (m : ℚ) ≤ ((m.natAbs : ℤ) : ℚ) := Int.cast_le.mpr h0
        _ = (m.natAbs : ℚ) := by simp [Int.cast_natAbs]
    have h2 : (m.natAbs : ℚ) < ((b ^ p : ℕ) : ℚ) := by exact_mod_cast hm
    have h3 : ((b ^ p : ℕ) : ℚ) = (b : ℚ) ^ (p : ℤ) := by
      push_cast
      rw [← zpow_natCast]
    linarith
  have hxlt : x < (b : ℚ) ^ ((p : ℤ) - k) := by
    rw [hxeq, div_lt_iff (zpow_pos hb0 k), ← zpow_add₀ hbne]
    have harith : (p : ℤ) - k + k = (p : ℤ) := by ring
    rw [harith]
    exact hmq
  have hek : qlog b x + 1 ≤ (p : ℤ) - k := by
    by_contra hc
    push_neg at hc
    have : (b : ℚ) ^ ((p : ℤ) - k) ≤ (b : ℚ) ^ qlog b x :=
      zpow_le_zpow_right₀ (le_of_lt hb1) (by omega)
    linarith
  have hjk : k ≤ (p : ℤ) - 1 - qlog b x := by omega
  have hint := int_mul_zpow hb0 m k ((p : ℤ) - 1 - qlog b x) hjk
  rw [← hxeq] at hint
  have hdiv := int_div_zpow hb0 m k ((p : ℤ) - 1 - qlog b x) hjk
  rw [← hxeq] at hdiv
  rw [sigRndPos_eq hb, hint, rhe_intCast, hdiv]

theorem sigRnd_eq_self {b p : ℕ} (hb : 2 ≤ b) {x : ℚ} (m k : ℤ)
    (hxeq : x = (m : ℚ) / (b : ℚ) ^ k) (hm : m.natAbs < b ^ p) :
    sigRnd b p x = x := by
  rcases lt_trichotomy x 0 with hneg | hzero | hpos
  · rw [sigRnd, if_neg (by linarith), if_pos hneg]
    have hmx : -x = ((-m : ℤ) : ℚ) / (b : ℚ) ^ k := by
      rw [hxeq]
      push_cast
      ring
    rw [sigRndPos_eq_self hb (by linarith : (0 : ℚ) < -x) (-m) k hmx (by simpa using hm)]
    ring
  · rw [hzero, sigRnd_zero]
  · rw [sigRnd, if_pos hpos]
    exact sigRndPos_eq_self hb hpos m k hxeq hm

/-! ### Sign facts for the shortest-representation conversion -/

theorem shortestFrom_pos {x : ℚ} (hx : 0 < x) : ∀ n, n ≤ 17 → 0 < shortestFrom x n := by
  intro n
  induction n with
  | zero =>
    intro _
    rw [shortestFrom]
    exact hx
  | succ n ih =>
    intro hn
    rw [shortestFrom]
    split_ifs with hc
    · exact sigRndPos_pos (by norm_num) (by omega) hx
    · exact ih (by omega)

theorem strFloat_pos {x : ℚ} (hx : 0 < x) : 0 < strFloat x := by
  rw [strFloat, if_pos hx, strFloatPos]
  exact shortestFrom_pos hx 17 (le_refl 17)

theorem strFloat_neg {x : ℚ} (hx : x < 0) : strFloat x < 0 := by
  rw [strFloat, if_neg (by linarith), if_pos hx]
  have h0 : 0 < strFloatPos (-x) := by
    rw [strFloatPos]
    exact shortestFrom_pos (by linarith) 17 (le_refl 17)
  linarith

/-! ### Derived facts about the money-rounding operations -/

theorem q2hu_nonneg {x : ℚ} (hx : 0 ≤ x) : 0 ≤ q2hu x := by
  rw [q2hu]
  apply div_nonneg _ (by norm_num)
  exact_mod_cast rhu_nonneg (mul_nonneg hx (by norm_num))

theorem q2hu_mono_nonneg {x y : ℚ} (hx : 0 ≤ x) (h : x ≤ y) : q2hu x ≤ q2hu y := by
  rw [q2hu, q2hu]
  apply (div_le_div_right (by norm_num : (0:ℚ) < 100)).mpr
  exact_mod_cast rhu_mono_nonneg (mul_nonneg hx (by norm_num))
    (mul_le_mul_of_nonneg_right h (by norm_num))

theorem rne53_nonneg {x : ℚ} (hx : 0 ≤ x) : 0 ≤ rne53 x :=
  sigRnd_nonneg (by norm_num) hx

theorem rne53_pos {x : ℚ} (hx : 0 < x) : 0 < rne53 x :=
  sigRnd_pos (by norm_num) (by norm_num) hx

theorem rne53_mono {x y : ℚ} (hx : 0 ≤ x) (h : x ≤ y) : rne53 x ≤ rne53 y :=
  sigRnd_mono (by norm_num) (by norm_num) hx h

theorem decRnd_nonneg {x : ℚ} (hx : 0 ≤ x) : 0 ≤ decRnd x :=
  sigRnd_nonneg (by norm_num) hx

theorem decRnd_mono {x y : ℚ} (hx : 0 ≤ x) (h : x ≤ y) : decRnd x ≤ decRnd y :=
  sigRnd_mono (by norm_num) (by norm_num) hx h

theorem decRnd_eq_self {x : ℚ} (m k : ℤ) (hxeq : x = (m : ℚ) / 10 ^ k)
    (hm : m.natAbs < 10 ^ 28) : decRnd x = x := by
  apply sigRnd_eq_self (by norm_num) m k ?_ (by exact_mod_cast hm)
  rw [hxeq]
  norm_num

theorem decRnd_of_dec28 {x : ℚ} (h : Dec28 x) : decRnd x = x := by
  obtain ⟨m, k, hxeq, hm⟩ := h
  exact decRnd_eq_self m k hxeq hm

theorem taxFactor_value : dAdd 1 (strFloat TAX_RATE) = 217/200 := by
  with_unfolding_all decide

/-! ### Association-list facts for the item store -/

theorem lookup_filter_not_beq (l : List (String × Item)) (n : String) :
    (l.filter fun kv => !(kv.1 == n)).lookup n = none := by
  induction l with
  | nil => rfl
  | cons kv tl ih =>
    obtain ⟨k, v⟩ := kv
    by_cases hk : k = n
    · subst hk
      simp only [List.filter_cons, beq_self_eq_true, Bool.not_true]
      simpa using ih
    · have h1 : (k == n) = false := beq_eq_false_iff_ne.mpr hk
      have h2 : (n == k) = false := beq_eq_false_iff_ne.mpr (Ne.symm hk)
      simp only [List.filter_cons, h1, Bool.not_false, if_true, List.lookup_cons, h2]
      exact ih

theorem filter_eq_self_of_lookup_none (l : List (String × Item)) (n : String)
    (h : l.lookup n = none) : (l.filter fun kv => !(kv.1 == n)) = l := by
  induction l with
  | nil => rfl
  | cons kv tl ih =>
    obtain ⟨k, v⟩ := kv
    by_cases hk : n = k
    · have hb : (n == k) = true := by simp [hk]
      simp [List.lookup_cons, hb] at h
    · have hb : (n == k) = false := beq_eq_false_iff_ne.mpr hk
      have h1 : (k == n) = false := beq_eq_false_iff_ne.mpr (Ne.symm hk)
      simp only [List.lookup_cons, hb] at h
      simp only [List.filter_cons, h1, Bool.not_false, if_true]
      rw [ih h]

theorem lookup_append_of_none (l1 l2 : List (String × Item)) (n : String)
    (h : l1.lookup n = none) : (l1 ++ l2).lookup n = l2.lookup n := by
  induction l1 with
  | nil => rfl
  | cons kv tl ih =>
    obtain ⟨k, v⟩ := kv
    by_cases hk : n = k
    · have hb : (n == k) = true := by simp [hk]
      simp [List.lookup_cons, hb] at h
    · have hb : (n == k) = false := beq_eq_false_iff_ne.mpr hk
      simp only [List.lookup_cons, hb] at h
      rw [List.cons_append, List.lookup_cons]
      simp only [hb]
      exact ih h

theorem lookup_map_of_none (l : List (String × Item)) (n : String)
    (f : String × Item → String × Item) (hf : ∀ kv, (f kv).1 = kv.1)
    (h : l.lookup n = none) : (l.map f).lookup n = none := by
  induction l with
  | nil => rfl
  | cons kv tl ih =>
    obtain ⟨k, v⟩ := kv
    by_cases hk : n = k
    · have hb : (n == k) = true := by simp [hk]
      simp [List.lookup_cons, hb] at h
    · have hb : (n == k) = false := beq_eq_false_iff_ne.mpr hk
      simp only [List.lookup_cons, hb] at h
      rw [List.map_cons, List.lookup_cons]
      have hb2 : (n == (f (k, v)).1) = false := by rw [hf (k, v)]; exact hb
      simp only [hb2]
      exact ih h

/-! ### Claims -/

/-- Claim C3: `add_item` raises `ValueError` exactly when price < 0 or
quantity ≤ 0; when price is negative the price violation is the one
reported (price is checked first); and on error the cart state is
unchanged, since validation precedes any store mutation. -/
theorem add_item_validation (s : CartState) (n : String) (p q : ℚ) :
    ((∃ e, add_item s n p q = Except.error e) ↔ p < 0 ∨ q ≤ 0) ∧
    (p < 0 → add_item s n p q = Except.error "Price cannot be negative") ∧
    (∀ e, add_item s n p q = Except.error e → runAdd s n p q = s) := by
  refine ⟨⟨?_, ?_⟩, ?_, ?_⟩
  · rintro ⟨e, he⟩
    by_contra hc
    push_neg at hc
    obtain ⟨hp, hq⟩ := hc
    rw [add_item, if_neg (not_lt.mpr hp), if_neg (not_le.mpr hq)] at he
    split_ifs at he <;> simp at he
  · intro h
    by_cases hp : p < 0
    · exact ⟨"Price cannot be negative", by rw [add_item, if_pos hp]⟩
    · have hq : q ≤ 0 := h.resolve_left hp
      exact ⟨"Quantity must be greater than zero",
        by rw [add_item, if_neg hp, if_pos hq]⟩
  · intro hp
    rw [add_item, if_pos hp]
  · intro e he
    rw [runAdd, he]

/-- Claim C3 witness: a negative price on a concrete cart is rejected
with the price message. -/
theorem add_item_validation_witness :
    add_item emptyCart "Apple" (-(3/2)) 1 = Except.error "Price cannot be negative" :=
  (add_item_validation emptyCart "Apple" (-(3/2)) 1).2.1 (by norm_num)

/-- Claim C4: `get_total` is non-negative for every cart state (the
discounted amount is clamped at zero before tax), and on a cart holding
one item of price 10.00, quantity 1 with a fixed discount of 50.00 the
total is exactly 0. -/
theorem get_total_nonneg_clamped :
    (∀ s : CartState, 0 ≤ get_total s) ∧
    get_total ⟨[("Item", ⟨10, 1⟩)], some ⟨"HUGE", "fixed", 50⟩⟩ = 0 := by
  constructor
  · intro s
    rw [get_total, taxFactor_value]
    apply rne53_nonneg
    apply q2hu_nonneg
    rw [dMul]
    apply decRnd_nonneg
    apply mul_nonneg _ (by norm_num)
    split_ifs with h
    · exact le_refl 0
    · exact not_lt.mp h
  · with_unfolding_all decide

/-- Claim C5: only the most recently applied discount affects the
total — each `apply_discount` call overwrites the discount slot — and
applying 10 percent then 20 percent on a single 100.00 item gives the
float 86.80. -/
theorem apply_discount_last_write_wins :
    (∀ (s : CartState) (c1 t1 : String) (v1 : ℚ) (c2 t2 : String) (v2 : ℚ),
      get_total (apply_discount (apply_discount s c1 t1 v1) c2 t2 v2) =
        get_total (apply_discount s c2 t2 v2)) ∧
    get_total (apply_discount
      (apply_discount ⟨[("Item", ⟨100, 1⟩)], none⟩ "SAVE10" "percentage" 10)
      "SAVE20" "percentage" 20) = rne53 (434/5) := by
  constructor
  · intro s c1 t1 v1 c2 t2 v2
    rfl
  · with_unfolding_all decide

/-- Claim C6: `apply_discount` never fails (it is a total function that
just overwrites the slot), and a stored discount whose type is neither
"percentage" nor "fixed" leaves `get_total` exactly as if no discount
were applied. -/
theorem apply_discount_unknown_type_noop (s : CartState) (c t : String) (v : ℚ)
    (h1 : t ≠ "percentage") (h2 : t ≠ "fixed") :
    get_total (apply_discount s c t v) = get_total ⟨s.items, none⟩ := by
  rw [get_total, get_total]
  simp only [apply_discount, rawSubtotal]
  rw [if_neg h1, if_neg h2]

/-- Claim C6 witness: an unrecognized discount type on a concrete cart
leaves the total at the undiscounted value. -/
theorem apply_discount_unknown_type_noop_witness :
    get_total (apply_discount ⟨[("A", ⟨10, 1⟩)], none⟩ "X" "bogo" 5) =
      get_total ⟨[("A", ⟨10, 1⟩)], none⟩ :=
  apply_discount_unknown_type_noop ⟨[("A", ⟨10, 1⟩)], none⟩ "X" "bogo" 5
    (by decide) (by decide)

/-- Claim C8: `remove_item` never fails: it removes the entry for the
name (no entry with that name remains), and when the name is absent it
is a no-op leaving the state and the derived count, subtotal and total
unchanged. -/
theorem remove_item_absent_noop (s : CartState) (n : String) :
    ((remove_item s n).items.lookup n = none) ∧
    (s.items.lookup n = none →
      remove_item s n = s ∧
      get_item_count (remove_item s n) = get_item_count s ∧
      get_subtotal (remove_item s n) = get_subtotal s ∧
      get_total (remove_item s n) = get_total s) := by
  constructor
  · exact lookup_filter_not_beq s.items n
  · intro h
    have he : remove_item s n = s := by
      rw [remove_item, filter_eq_self_of_lookup_none s.items n h]
    exact ⟨he, by rw [he], by rw [he], by rw [he]⟩

/-- Claim C8 witness: removing an absent name from a concrete cart
leaves the state unchanged. -/
theorem remove_item_absent_noop_witness :
    remove_item ⟨[("Apple", ⟨3/2, 2⟩)], none⟩ "Banana" =
      (⟨[("Apple", ⟨3/2, 2⟩)], none⟩ : CartState) :=
  ((remove_item_absent_noop ⟨[("Apple", ⟨3/2, 2⟩)], none⟩ "Banana").2
    (by with_unfolding_all decide)).1


/-- Claim C7 counterexample: quantities accumulate by binary64 float
addition, so adding quantity 1 to an existing quantity of 2^53 leaves
the stored quantity at 2^53, not 2^53 + 1 as the exact sum would
require. -/
theorem add_item_exact_sum_cex :
    ¬ ((runAdd (runAdd emptyCart "X" 1 9007199254740992) "X" 1 1).items.lookup "X" =
      some ⟨1, 9007199254740992 + 1⟩) := by
  with_unfolding_all decide

/-- Claim C7 (amended): for a name not yet stored, adding it and then
adding it again with any price merges only the quantity: the stored
entry keeps the first-insertion price and its quantity is the
floating-point sum of the two quantities, which equals the exact sum
q1 + q2 whenever that sum is exactly representable in binary64. -/
theorem add_item_accumulates_quantity (s : CartState) (n : String) (p q1 p2 q2 : ℚ)
    (habs : s.items.lookup n = none) (hp : 0 ≤ p) (hq1 : 0 < q1)
    (hp2 : 0 ≤ p2) (hq2 : 0 < q2) :
    (runAdd (runAdd s n p q1) n p2 q2).items.lookup n = some ⟨p, fadd q1 q2⟩ ∧
    (rne53 (q1 + q2) = q1 + q2 →
      (runAdd (runAdd s n p q1) n p2 q2).items.lookup n = some ⟨p, q1 + q2⟩) := by
  have hstep1 : runAdd s n p q1 = { s with items := s.items ++ [(n, ⟨p, q1⟩)] } := by
    rw [runAdd, add_item, if_neg (not_lt.mpr hp), if_neg (not_le.mpr hq1),
      if_neg (by rw [habs]; simp)]
  have hlook : (s.items ++ [(n, (⟨p, q1⟩ : Item))]).lookup n = some ⟨p, q1⟩ := by
    rw [lookup_append_of_none s.items _ n habs]
    simp
  have hkey : ∀ kv : String × Item,
      ((if kv.1 = n then (kv.1, { kv.2 with quantity := fadd kv.2.quantity q2 }) else kv) :
        String × Item).1 = kv.1 := by
    intro kv
    split_ifs <;> rfl
  have hstep2 : runAdd { s with items := s.items ++ [(n, (⟨p, q1⟩ : Item))] } n p2 q2 =
      { s with items := (s.items ++ [(n, (⟨p, q1⟩ : Item))]).map fun kv : String × Item =>
        if kv.1 = n then (kv.1, { kv.2 with quantity := fadd kv.2.quantity q2 })
        else kv } := by
    rw [runAdd, add_item, if_neg (not_lt.mpr hp2), if_neg (not_le.mpr hq2),
      if_pos (show ((s.items ++ [(n, (⟨p, q1⟩ : Item))]).lookup n).isSome = true from by
        rw [hlook]
        rfl)]
  have hmap : ((s.items ++ [(n, (⟨p, q1⟩ : Item))]).map fun kv : String × Item =>
      if kv.1 = n then (kv.1, { kv.2 with quantity := fadd kv.2.quantity q2 }) else kv) =
      (s.items.map fun kv : String × Item =>
        if kv.1 = n then (kv.1, { kv.2 with quantity := fadd kv.2.quantity q2 }) else kv)
        ++ [(n, (⟨p, fadd q1 q2⟩ : Item))] := by
    rw [List.map_append]
    congr 1
    simp
  have hfinal : (runAdd (runAdd s n p q1) n p2 q2).items.lookup n =
      some ⟨p, fadd q1 q2⟩ := by
    rw [hstep1, hstep2]
    show (((s.items ++ [(n, (⟨p, q1⟩ : Item))]).map fun kv : String × Item =>
      if kv.1 = n then (kv.1, { kv.2 with quantity := fadd kv.2.quantity q2 })
      else kv).lookup n) = some ⟨p, fadd q1 q2⟩
    rw [hmap, lookup_append_of_none _ _ n (lookup_map_of_none s.items n _ hkey habs)]
    simp
  refine ⟨hfinal, fun hrep => ?_⟩
  have hq12 : fadd q1 q2 = q1 + q2 := by
    rw [fadd, hrep]
  rw [hfinal, hq12]

/-- Claim C7 witness: adding "X" at price 3/2 quantity 2 and again at a
different price 9/4 with quantity 3 leaves price 3/2 and quantity 5. -/
theorem add_item_accumulates_quantity_witness :
    (runAdd (runAdd emptyCart "X" (3/2) 2) "X" (9/4) 3).items.lookup "X" =
      some ⟨3/2, 5⟩ := by
  have h := (add_item_accumulates_quantity emptyCart "X" (3/2) 2 (9/4) 3
    (by with_unfolding_all decide) (by norm_num) (by norm_num) (by norm_num)
    (by norm_num)).2 (by with_unfolding_all decide)
  rw [show (2 : ℚ) + 3 = 5 by norm_num] at h
  exact h

theorem step_preserves_inv (s : CartState) (op : Op) (h : CartInv s) :
    CartInv (step s op) := by
  cases op with
  | add n p q =>
    show CartInv (runAdd s n p q)
    rw [runAdd, add_item]
    split_ifs with h1 h2 h3
    · exact h
    · exact h
    · intro kv hkv
      obtain ⟨kv0, hkv0, hkveq⟩ := List.mem_map.mp hkv
      subst hkveq
      by_cases hc : kv0.1 = n
      · rw [if_pos hc]
        refine ⟨(h kv0 hkv0).1, ?_⟩
        show 0 < fadd kv0.2.quantity q
        rw [fadd]
        exact rne53_pos (add_pos (h kv0 hkv0).2 (not_le.mp h2))
      · rw [if_neg hc]
        exact h kv0 hkv0
    · intro kv hkv
      rcases List.mem_append.mp hkv with hmem | hmem
      · exact h kv hmem
      · have hkveq : kv = (n, ⟨p, q⟩) := List.mem_singleton.mp hmem
        subst hkveq
        exact ⟨not_lt.mp h1, not_le.mp h2⟩
  | remove n =>
    intro kv hkv
    exact h kv (List.mem_filter.mp hkv).1
  | disc c t v => exact h

/-- Claim C9: in every cart state reachable from the empty cart by any
sequence of `add_item` (with Python exception semantics), `remove_item`
and `apply_discount` calls, every stored item has price ≥ 0 and
quantity > 0; an item with quantity ≤ 0 never exists in the store. -/
theorem reachable_cart_satisfies_invariant (ops : List Op) : CartInv (run ops) := by
  rw [run]
  have haux : ∀ (l : List Op) (s : CartState), CartInv s → CartInv (l.foldl step s) := by
    intro l
    induction l with
    | nil => exact fun s h => h
    | cons op tl ih =>
      intro s h
      rw [List.foldl_cons]
      exact ih _ (step_preserves_inv s op h)
  apply haux
  intro kv hkv
  exact absurd hkv (List.not_mem_nil kv)


theorem get_total_none (s : CartState) :
    get_total ⟨s.items, none⟩ =
      rne53 (q2hu (dMul
        (if strFloat (rawSubtotal s) < 0 then 0 else strFloat (rawSubtotal s))
        (dAdd 1 (strFloat TAX_RATE)))) := rfl

theorem get_total_fixed (s : CartState) (c : String) (v : ℚ) :
    get_total ⟨s.items, some ⟨c, "fixed", v⟩⟩ =
      rne53 (q2hu (dMul
        (if dSub (strFloat (rawSubtotal s)) (strFloat v) < 0 then 0
          else dSub (strFloat (rawSubtotal s)) (strFloat v))
        (dAdd 1 (strFloat TAX_RATE)))) := by
  with_unfolding_all rfl

/-- Claim C10 counterexample: a tiny negative fixed discount does not
strictly increase the rounded total: with one 10.00 item, a fixed
discount of the float -0.001 still yields the same 10.85 total as no
discount, because the increase vanishes in the 2-decimal rounding. -/
theorem negative_discount_not_strict_cex :
    ¬ (get_total ⟨[("Item", ⟨10, 1⟩)], none⟩ <
      get_total ⟨[("Item", ⟨10, 1⟩)], some ⟨"NEG", "fixed", rne53 (-(1/1000))⟩⟩) := by
  with_unfolding_all decide

/-- Claim C10 (amended): `apply_discount` accepts a negative value
without error (it is a total function and performs no validation); for
a fixed discount with negative value the subtracted decimal is
negative, so the pre-tax amount strictly exceeds the subtotal; the
returned total is then at least the no-discount total, with strict
increase for large enough magnitude (for example value -10 on a 10.00
item) but not in general, since a small increase can vanish in the
2-decimal rounding. -/
theorem negative_fixed_discount_behavior (s : CartState) (c : String) (v : ℚ)
    (hv : v < 0)
    (hfit : decRnd (strFloat (rawSubtotal s)) = strFloat (rawSubtotal s)) :
    strFloat v < 0 ∧
    strFloat (rawSubtotal s) < strFloat (rawSubtotal s) - strFloat v ∧
    get_total ⟨s.items, none⟩ ≤ get_total ⟨s.items, some ⟨c, "fixed", v⟩⟩ ∧
    get_total ⟨[("Item", ⟨10, 1⟩)], none⟩ <
      get_total ⟨[("Item", ⟨10, 1⟩)], some ⟨"NEG", "fixed", -10⟩⟩ := by
  have hw : strFloat v < 0 := strFloat_neg hv
  refine ⟨hw, by linarith, ?_, by with_unfolding_all decide⟩
  rw [get_total_none s, get_total_fixed s c v, taxFactor_value]
  set S := strFloat (rawSubtotal s) with hSdef
  set w := strFloat v with hwdef
  set A := dSub S w with hAdef
  have key : 0 ≤ S → S ≤ A := by
    intro hS0
    rw [hAdef, dSub]
    calc S = decRnd S := hfit.symm
      _ ≤ decRnd (S - w) := decRnd_mono hS0 (by linarith)
  have hcl : (if S < 0 then 0 else S) ≤ (if A < 0 then 0 else A) := by
    split_ifs with h1 h2 h3
    · exact le_refl 0
    · exact not_lt.mp h2
    · have := key (not_lt.mp h1)
      linarith
    · exact key (not_lt.mp h1)
  have hBnn : (0 : ℚ) ≤ (if S < 0 then 0 else S) := by
    split_ifs with h
    · exact le_refl 0
    · exact not_lt.mp h
  exact rne53_mono (q2hu_nonneg (decRnd_nonneg (mul_nonneg hBnn (by norm_num))))
    (q2hu_mono_nonneg (decRnd_nonneg (mul_nonneg hBnn (by norm_num)))
      (decRnd_mono (mul_nonneg hBnn (by norm_num))
        (mul_le_mul_of_nonneg_right hcl (by norm_num))))

/-- Claim C10 witness: the bound instantiated on a concrete cart with
the float value -0.001. -/
theorem negative_fixed_discount_behavior_witness :
    get_total ⟨[("Item", (⟨10, 1⟩ : Item))], none⟩ ≤
      get_total ⟨[("Item", (⟨10, 1⟩ : Item))], some ⟨"NEG", "fixed", rne53 (-(1/1000))⟩⟩ :=
  (negative_fixed_discount_behavior ⟨[("Item", ⟨10, 1⟩)], none⟩ "NEG"
    (rne53 (-(1/1000))) (by with_unfolding_all decide)
    (by with_unfolding_all decide)).2.2.1


/-- Claim C2 counterexample: `get_subtotal` is Python `round`, which
rounds the binary value half-to-even, not half-up: a single item of
price 0.125 (exactly representable) and quantity 1 gives 0.12, while
round-half-up of the exact sum gives 0.13. -/
theorem get_subtotal_tie_cex :
    get_subtotal ⟨[("odd", ⟨1/8, 1⟩)], none⟩ ≠
      rne53 (specSubtotal ⟨[("odd", ⟨1/8, 1⟩)], none⟩) := by
  with_unfolding_all decide

/-- Claim C2 (amended): `get_subtotal` returns the float sum of the
per-item products rounded to 2 decimal places by Python `round`
(half-to-even on the binary value); it agrees with round-half-up of the
exact sum whenever the float accumulation is exact and the hundredfold
of the exact sum is not at a midpoint. -/
theorem get_subtotal_half_up_refinement (s : CartState)
    (h1 : rawSubtotal s = specRawSubtotal s)
    (h2 : 0 ≤ specRawSubtotal s)
    (h3 : specRawSubtotal s * 100 - ⌊specRawSubtotal s * 100⌋ ≠ 1/2) :
    get_subtotal s = rne53 (specSubtotal s) := by
  rw [get_subtotal, pyRound2, h1, specSubtotal, q2hu,
    rhe_eq_rhu (mul_nonneg h2 (by norm_num)) h3]

/-- Claim C2 witness: on a cart with one item of price 1.50 and
quantity 2 the implementation agrees with the specification value. -/
theorem get_subtotal_half_up_refinement_witness :
    get_subtotal ⟨[("Apple", (⟨3/2, 2⟩ : Item))], none⟩ =
      rne53 (specSubtotal ⟨[("Apple", (⟨3/2, 2⟩ : Item))], none⟩) :=
  get_subtotal_half_up_refinement ⟨[("Apple", ⟨3/2, 2⟩)], none⟩
    (by with_unfolding_all decide) (by with_unfolding_all decide)
    (by with_unfolding_all decide)

/-- Claim C1 counterexample: the raw subtotal passes through binary
floating point before reaching the decimal pipeline.  For the price
6641252906721469/2^58 (the binary64 float nearest 5/217, a value a
caller can pass as 0.02304147465437788), quantity 1 and no discount,
the exact-decimal specification total is 0.03 but the implementation
returns the float 0.02, because the shortest decimal representation of
the stored float lies on the other side of the 0.025 rounding boundary
from its exact value. -/
theorem get_total_float_subtotal_cex :
    get_total ⟨[("widget", ⟨6641252906721469/288230376151711744, 1⟩)], none⟩ ≠
      rne53 (specTotal ⟨[("widget", ⟨6641252906721469/288230376151711744, 1⟩)], none⟩) := by
  with_unfolding_all decide

/-- Claim C1 (amended): `get_total` computes the raw subtotal in binary
floating point and re-reads it through its shortest decimal
representation; from there the discount, clamp, tax and round-half-up
steps agree with the exact-decimal specification whenever (i) the
shortest decimal representation of the float subtotal equals the exact
subtotal, (ii) the discount value survives its own float-to-decimal
conversion, and (iii) the intermediate decimal values fit in the
28-significant-digit decimal context. -/
theorem get_total_decimal_pipeline_refinement (s : CartState)
    (h1 : strFloat (rawSubtotal s) = specRawSubtotal s)
    (h2 : ∀ d, s.discount = some d → strFloat d.value = d.value)
    (h3 : Dec28 (max 0 (specDiscounted (specRawSubtotal s) s.discount) * (1 + 17/200)))
    (h4 : ∀ d, s.discount = some d → d.dtype = "percentage" →
      Dec28 (d.value / 100) ∧ Dec28 (specRawSubtotal s * (d.value / 100)) ∧
      Dec28 (specRawSubtotal s - specRawSubtotal s * (d.value / 100)))
    (h5 : ∀ d, s.discount = some d → d.dtype = "fixed" →
      Dec28 (specRawSubtotal s - d.value)) :
    get_total s = rne53 (specTotal s) := by
  have hclamp : ∀ x : ℚ, (if x < 0 then 0 else x) = max 0 x := by
    intro x
    split_ifs with h
    · exact (max_eq_left (le_of_lt h)).symm
    · exact (max_eq_right (not_lt.mp h)).symm
  have htax : (1 : ℚ) + 17/200 = 217/200 := by norm_num
  rw [get_total, specTotal, taxFactor_value]
  cases hd : s.discount with
  | none =>
    rw [hd] at h3
    simp only [specDiscounted] at h3
    rw [htax] at h3
    dsimp only
    rw [h1, hclamp, htax, dMul, decRnd_of_dec28 h3]
    rfl
  | some d =>
    rw [hd] at h3
    have hval := h2 d hd
    by_cases ht1 : d.dtype = "percentage"
    · obtain ⟨hA, hB, hC⟩ := h4 d hd ht1
      simp only [specDiscounted] at h3 ⊢
      rw [if_pos ht1] at h3 ⊢
      rw [htax] at h3
      rw [if_pos ht1, h1, hval]
      simp only [dDiv, dMul, dSub]
      rw [decRnd_of_dec28 hA, decRnd_of_dec28 hB, decRnd_of_dec28 hC, hclamp, htax,
        decRnd_of_dec28 h3]
    · by_cases ht2 : d.dtype = "fixed"
      · have hF := h5 d hd ht2
        simp only [specDiscounted] at h3 ⊢
        rw [if_neg ht1, if_pos ht2] at h3 ⊢
        rw [htax] at h3
        rw [if_neg ht1, if_pos ht2, h1, hval]
        simp only [dSub, dMul]
        rw [decRnd_of_dec28 hF, hclamp, htax, decRnd_of_dec28 h3]
      · simp only [specDiscounted] at h3 ⊢
        rw [if_neg ht1, if_neg ht2] at h3 ⊢
        rw [htax] at h3
        rw [if_neg ht1, if_neg ht2, h1]
        simp only [dMul]
        rw [hclamp, htax, decRnd_of_dec28 h3]

/-- Claim C1 witness: the refinement instantiated on a 100.00 item with
a 20 percent discount, where both sides give the float 86.80. -/
theorem get_total_decimal_pipeline_refinement_witness :
    get_total ⟨[("Item", (⟨100, 1⟩ : Item))], some ⟨"SAVE20", "percentage", 20⟩⟩ =
      rne53 (specTotal ⟨[("Item", (⟨100, 1⟩ : Item))], some ⟨"SAVE20", "percentage", 20⟩⟩) :=
  get_total_decimal_pipeline_refinement
    ⟨[("Item", ⟨100, 1⟩)], some ⟨"SAVE20", "percentage", 20⟩⟩
    (by with_unfolding_all decide)
    (by intro d hd
        cases hd
        with_unfolding_all decide)
    ⟨868, 1, by with_unfolding_all decide, by norm_num⟩
    (by intro d hd ht
        cases hd
        exact ⟨⟨2, 1, by with_unfolding_all decide, by norm_num⟩,
          ⟨20, 0, by with_unfolding_all decide, by norm_num⟩,
          ⟨80, 0, by with_unfolding_all decide, by norm_num⟩⟩)
    (by intro d hd ht
        cases hd
        exact absurd ht (by decide))


end Cart
